import Mathlib

/- A shallow embedding of the PyQuickWin selection engine from
   src/pyquickwin.pyw: the StrCompare matcher, the HistStore and HistManager
   history mechanism, the WinManager item list and selection engine with its
   alias store, and the command-application step of the main Processor.
   Python strings are modelled as Lean strings iterated as lists of
   characters; Python dicts as association lists in insertion order; object
   identity of managed windows as their unique ordinal number. -/

namespace PyQuickWin

/-- Whitespace test used to model the Python str.strip method. -/
def isPySpace (c : Char) : Bool :=
  c == ' ' || c == '\t' || c == '\n' || c == '\r' || c == '\x0b' || c == '\x0c'

/-- Model of the Python str.strip method: drop whitespace at both ends. -/
def pyStrip (s : String) : String :=
  String.mk (((s.toList.dropWhile isPySpace).reverse.dropWhile isPySpace).reverse)

/-- Model of the Python str.startswith method. -/
def pyStartsWith (s pre : String) : Bool :=
  pre.toList.isPrefixOf s.toList

/-- Model of the Python str.lower method applied before character iteration:
    the lowercased character list of a string. -/
def pyLower (s : String) : List Char :=
  s.toList.map Char.toLower

namespace StrCompare

/-- Index of the first occurrence of a character in a character list; helper
    for modelling the Python str.index method. -/
def findIdxFrom (c : Char) : List Char → Option Nat
  | [] => none
  | d :: ds => if d = c then some 0 else (findIdxFrom c ds).map (· + 1)

/-- Model of the Python call target.index(c, start): the first index of c at
    or after position start, none when absent (the ValueError branch of
    StrCompare.progressive). -/
def pyIndexFrom (targ : List Char) (c : Char) (start : Nat) : Option Nat :=
  (findIdxFrom c (targ.drop start)).map (· + start)

/-- The scanning loop of StrCompare.progressive: for every character of the
    test, find it in the target at or after the cursor, then advance the
    cursor just past the position found. -/
def progLoop (targ : List Char) : List Char → Nat → Bool
  | [], _ => true
  | c :: cs, prev =>
    match pyIndexFrom targ c prev with
    | none => false
    | some index => if index < prev then false else progLoop targ cs (index + 1)

/-- StrCompare.progressive including the argument check of the argcheck
    decorator: an empty test matches everything, a remaining empty target
    matches nothing, otherwise the case-insensitive subsequence scan runs. -/
def progressive (test target : String) : Bool :=
  if test = "" then true
  else if target = "" then false
  else progLoop (pyLower target) (pyLower test) 0

/-- Helper modelling the Python substring test: does the pattern occur at the
    very head of the list. -/
def headMatch : List Char → List Char → Bool
  | [], _ => true
  | _ :: _, [] => false
  | c :: cs, d :: ds => (c == d) && headMatch cs ds

/-- Model of the Python expression pat in s on character lists: contiguous
    substring containment at some position. -/
def strIn (pat : List Char) : List Char → Bool
  | [] => pat.isEmpty
  | d :: ds => headMatch pat (d :: ds) || strIn pat ds

/-- StrCompare.includes including the argument check: case-insensitive
    substring containment. -/
def includes (test target : String) : Bool :=
  if test = "" then true
  else if target = "" then false
  else strIn (pyLower test) (pyLower target)

/-- StrCompare.exact including the argument check: case-insensitive
    equality. -/
def exact (test target : String) : Bool :=
  if test = "" then true
  else if target = "" then false
  else pyLower test == pyLower target

/-- StrCompare.choice including the argument check: dispatch on a leading
    sigil character (ASCII 39) to includes after stripping the sigil,
    otherwise to the progressive matcher. -/
def choice (test target : String) : Bool :=
  if test = "" then true
  else if target = "" then false
  else
    match test.toList with
    | c :: rest =>
      if c.toNat = 39 then includes (String.mk rest) target
      else progressive test target
    | [] => progressive test target

end StrCompare

namespace StrCompare

lemma findIdxFrom_eq_none {c : Char} {l : List Char}
    (h : findIdxFrom c l = none) : c ∉ l := by
  induction l with
  | nil => simp
  | cons d ds ih =>
    by_cases hd : d = c
    · simp [findIdxFrom, hd] at h
    · simp only [findIdxFrom, if_neg hd, Option.map_eq_none'] at h
      simp only [List.mem_cons, not_or]
      exact ⟨fun hc => hd hc.symm, ih h⟩

lemma findIdxFrom_eq_some {c : Char} : ∀ {l : List Char} {r : Nat},
    findIdxFrom c l = some r →
    ∃ pre suf, l = pre ++ c :: suf ∧ pre.length = r ∧ c ∉ pre := by
  intro l
  induction l with
  | nil => intro r h; simp [findIdxFrom] at h
  | cons d ds ih =>
    intro r h
    by_cases hd : d = c
    · subst hd
      have hr0 : r = 0 := by
        simp [findIdxFrom] at h
        omega
      subst hr0
      exact ⟨[], ds, rfl, rfl, by simp⟩
    · simp only [findIdxFrom, if_neg hd] at h
      rcases Option.map_eq_some'.mp h with ⟨r2, hr2, hr⟩
      rcases ih hr2 with ⟨pre, suf, hl, hlen, hmem⟩
      refine ⟨d :: pre, suf, by simp [hl], by simp [hlen, ← hr], ?_⟩
      simp only [List.mem_cons, not_or]
      exact ⟨fun hc => hd hc.symm, hmem⟩

lemma cons_sublist_split {c : Char} {cs suf : List Char} :
    ∀ {pre : List Char}, c ∉ pre → List.Sublist (c :: cs) (pre ++ c :: suf) → List.Sublist cs suf := by
  intro pre
  induction pre with
  | nil =>
    intro _ h
    exact List.cons_sublist_cons.mp h
  | cons p pre ih =>
    intro hpre h
    simp only [List.mem_cons, not_or] at hpre
    cases h with
    | cons a h2 => exact ih hpre.2 h2
    | cons₂ a h2 => exact absurd rfl hpre.1

lemma progLoop_iff_sublist (targ : List Char) :
    ∀ (cs : List Char) (prev : Nat),
    progLoop targ cs prev = true ↔ List.Sublist cs (targ.drop prev) := by
  intro cs
  induction cs with
  | nil => intro prev; simp [progLoop]
  | cons c cs ih =>
    intro prev
    rcases hf : findIdxFrom c (targ.drop prev) with _ | r
    · have hnm : c ∉ targ.drop prev := findIdxFrom_eq_none hf
      constructor
      · intro h
        exfalso
        simp [progLoop, pyIndexFrom, hf] at h
      · intro h
        exact absurd (h.subset (List.mem_cons_self c cs)) hnm
    · rcases findIdxFrom_eq_some hf with ⟨pre, suf, hdec, hlen, hpre⟩
      have hidx : pyIndexFrom targ c prev = some (r + prev) := by
        simp [pyIndexFrom, hf]
      have hnl : ¬ (r + prev < prev) := by omega
      have hstep : progLoop targ (c :: cs) prev
          = progLoop targ cs (r + prev + 1) := by
        simp [progLoop, hidx, hnl]
      have hsuf : targ.drop (r + prev + 1) = suf := by
        have h1 : targ.drop (r + prev + 1) = (targ.drop prev).drop (r + 1) := by
          rw [List.drop_drop]
          congr 1
          omega
        have h2 : pre ++ c :: suf = (pre ++ [c]) ++ suf := by simp
        have h3 : r + 1 = (pre ++ [c]).length := by simp [hlen]
        rw [h1, hdec, h2, h3, List.drop_left]
      rw [hstep, ih, hsuf, hdec]
      constructor
      · intro h
        exact (List.Sublist.cons₂ c h).trans (List.sublist_append_right pre (c :: suf))
      · intro h
        exact cons_sublist_split hpre h

lemma headMatch_sublist : ∀ (pat l : List Char), headMatch pat l = true → List.Sublist pat l
  | [], l, _ => List.nil_sublist l
  | _ :: _, [], h => by simp [headMatch] at h
  | c :: cs, d :: ds, h => by
    simp only [headMatch, Bool.and_eq_true, beq_iff_eq] at h
    rcases h with ⟨rfl, h2⟩
    exact List.Sublist.cons₂ c (headMatch_sublist cs ds h2)

lemma strIn_sublist : ∀ (pat l : List Char), strIn pat l = true → List.Sublist pat l
  | pat, [], h => by
    simp only [strIn, List.isEmpty_iff] at h
    simp [h]
  | pat, d :: ds, h => by
    simp only [strIn, Bool.or_eq_true] at h
    rcases h with h | h
    · exact headMatch_sublist pat (d :: ds) h
    · exact List.Sublist.cons d (strIn_sublist pat ds h)

end StrCompare

lemma pyLower_eq_nil {s : String} : pyLower s = [] ↔ s = "" := by
  constructor
  · intro h
    apply String.ext
    have hlen := congrArg List.length h
    simp only [pyLower, List.length_map] at hlen
    exact List.eq_nil_of_length_eq_zero hlen
  · intro h
    subst h
    rfl

lemma progressive_iff_sublist (test target : String) :
    StrCompare.progressive test target = true ↔ List.Sublist (pyLower test) (pyLower target) := by
  unfold StrCompare.progressive
  by_cases ht : test = ""
  · subst ht
    have hnil : pyLower ("") = [] := rfl
    simp [hnil]
  · by_cases htg : target = ""
    · subst htg
      simp only [if_neg ht, if_pos rfl]
      constructor
      · intro h; cases h
      · intro h
        have hnil : pyLower ("") = [] := rfl
        rw [hnil, List.sublist_nil] at h
        exact absurd (pyLower_eq_nil.mp h) ht
    · simp only [if_neg ht, if_neg htg]
      simpa using StrCompare.progLoop_iff_sublist (pyLower target) (pyLower test) 0

/-- Claim C8: StrCompare.progressive is exactly case-insensitive ordered-subsequence
    matching: it returns true iff the lowercased characters of the test occur
    in the lowercased target, in order, at strictly increasing positions
    (the list subsequence relation); in particular an empty test matches every
    target, and a non-empty test never matches an empty target. -/
theorem c8_progressive_subsequence (test target : String) :
    StrCompare.progressive test target = true ↔ List.Sublist (pyLower test) (pyLower target) :=
  progressive_iff_sublist test target

/-- Claim C10: a test accepted by the case-insensitive substring mode
    (StrCompare.includes, the mode reached by the stripped exact sigil) is
    always accepted by the fuzzy progressive mode on the same test text. -/
theorem c10_includes_le_progressive (test target : String)
    (h : StrCompare.includes test target = true) :
    StrCompare.progressive test target = true := by
  rw [progressive_iff_sublist]
  unfold StrCompare.includes at h
  by_cases ht : test = ""
  · subst ht
    have hnil : pyLower ("") = [] := rfl
    simp [hnil]
  · by_cases htg : target = ""
    · simp [ht, htg] at h
    · simp only [if_neg ht, if_neg htg] at h
      exact StrCompare.strIn_sublist (pyLower test) (pyLower target) h

/-- Witness for C10: the substring test fin against Finance is accepted by
    includes, and the theorem transfers it to progressive. -/
theorem c10_witness :
    StrCompare.includes ("fin") ("Finance") = true ∧
    StrCompare.progressive ("fin") ("Finance") = true :=
  ⟨by decide, c10_includes_le_progressive ("fin") ("Finance") (by decide)⟩

/-- A single processor history entry: the command text and the optionally
    remembered selected-row text. -/
structure HistEntry where
  cmd : String
  row : Option String
deriving DecidableEq

/-- State of HistStore: the persisted entry list, the configured maximum
    number of entries, and the configured row number to save. File handling
    is outside the model; the in-memory list is the source of truth. -/
structure HistStoreSt where
  hists : List HistEntry
  maxEntries : Nat
  saveRownum : Option Nat
deriving DecidableEq

/-- The private filter method of HistStore: entries whose command starts with
    the given optional text (none behaves as the empty string). -/
def HistStoreSt.filterPfx (st : HistStoreSt) (pfx : Option String) : List HistEntry :=
  st.hists.filter (fun h => pyStartsWith h.cmd (pfx.getD ("")))

/-- HistStore.len restricted to a prefix. -/
def HistStoreSt.lenPfx (st : HistStoreSt) (pfx : Option String) : Nat :=
  (st.filterPfx pfx).length

/-- Python list indexing, with negative indices counting from the end and the
    IndexError branch returning none, as in HistStore.get. -/
def pyGetIdx {α : Type} (l : List α) (i : Int) : Option α :=
  if 0 ≤ i then l.get? i.toNat
  else if 0 ≤ i + l.length then l.get? (i + l.length).toNat
  else none

/-- HistStore.get: the idx-th entry of the prefix-filtered list, none when
    the index is out of range. -/
def HistStoreSt.getPfx (st : HistStoreSt) (pfx : Option String) (idx : Int) :
    Option HistEntry :=
  pyGetIdx (st.filterPfx pfx) idx

/-- The accumulation loop of HistStore.add: walk the previous entries, keep
    each one whose command text is not already present, and stop as soon as
    the accumulated list has reached the configured maximum length (the
    length check runs after a possible append, as in the Python loop). -/
def addLoop (maxE : Nat) : List HistEntry → List HistEntry → List String → List HistEntry
  | [], newHists, _ => newHists
  | h :: rest, newHists, newCmds =>
    if h.cmd ∈ newCmds then
      if maxE ≤ newHists.length then newHists
      else addLoop maxE rest newHists newCmds
    else
      if maxE ≤ (newHists ++ [h]).length then newHists ++ [h]
      else addLoop maxE rest (newHists ++ [h]) (newCmds ++ [h.cmd])

/-- HistStore.add: strip the command, put the new entry at the front, and
    keep previous entries deduplicated by command text up to the cap via the
    accumulation loop. The associated row value is passed in directly and
    models the get_selrowtext lookup. -/
def HistStoreSt.add (st : HistStoreSt) (cmd : String) (row : Option String) : HistStoreSt :=
  { st with hists := addLoop st.maxEntries st.hists [⟨pyStrip cmd, row⟩] [pyStrip cmd] }

/-- State of HistManager: the underlying store plus the recall pointer and
    the captured command prefix context. -/
structure HistMgrSt where
  store : HistStoreSt
  pointer : Int
  cmdPfx : Option String
deriving DecidableEq

/-- HistManager.reset: pointer back to minus one, prefix context cleared. -/
def HistMgrSt.reset (m : HistMgrSt) : HistMgrSt :=
  { m with pointer := -1, cmdPfx := none }

/-- The private try_set_cmd_prefix helper of HistManager: capture the prefix
    context on first use, clear it again when navigation happens on an empty
    command text. -/
def HistMgrSt.trySetCmdPfx (m : HistMgrSt) (p : String) : HistMgrSt :=
  if m.cmdPfx = none then { m with cmdPfx := some p }
  else if p = "" then { m with cmdPfx := none }
  else m

/-- HistManager.get_next: advance the pointer by one, clamp it to the last
    index of the prefix-filtered list, and return the command text at the
    pointer. The outer Option models the Python None return on an empty
    filtered list together with the attribute access on the fetched entry. -/
def HistMgrSt.getNext (m0 : HistMgrSt) (p : String) : HistMgrSt × Option String :=
  let m1 := m0.trySetCmdPfx p
  let len : Int := m1.store.lenPfx m1.cmdPfx
  let ptr := if len ≤ m1.pointer + 1 then len - 1 else m1.pointer + 1
  let m2 := { m1 with pointer := ptr }
  if m2.store.lenPfx m2.cmdPfx = 0 then (m2, none)
  else (m2, (m2.store.getPfx m2.cmdPfx ptr).map (fun e => e.cmd))

/-- HistManager.get_prev: decrement the pointer by one, clamp it to index
    zero, and return the command text at the pointer. -/
def HistMgrSt.getPrev (m0 : HistMgrSt) (p : String) : HistMgrSt × Option String :=
  let m1 := m0.trySetCmdPfx p
  let ptr := if m1.pointer - 1 < 0 then 0 else m1.pointer - 1
  let m2 := { m1 with pointer := ptr }
  if m2.store.lenPfx m2.cmdPfx = 0 then (m2, none)
  else (m2, (m2.store.getPfx m2.cmdPfx ptr).map (fun e => e.cmd))

/-- The navigation key kinds seen by the update_histmgr decorator. -/
inductive KeyKind where
  | KNONE
  | PREV
  | NEXT
  | INTO
  | OUTOF
deriving DecidableEq

/-- The navigation arm of the update_histmgr decorator: a PREV key invokes
    get_prev and a NEXT key invokes get_next on the history manager; other
    keys fall through to the wrapped update method (none here). -/
def histNavigate (m : HistMgrSt) (key : KeyKind) (cmd : String) :
    Option (HistMgrSt × Option String) :=
  match key with
  | KeyKind.PREV => some (m.getPrev cmd)
  | KeyKind.NEXT => some (m.getNext cmd)
  | _ => none

lemma trySetCmdPfx_pointer (m : HistMgrSt) (p : String) :
    (m.trySetCmdPfx p).pointer = m.pointer := by
  unfold HistMgrSt.trySetCmdPfx
  split
  · rfl
  · split <;> rfl

lemma trySetCmdPfx_store (m : HistMgrSt) (p : String) :
    (m.trySetCmdPfx p).store = m.store := by
  unfold HistMgrSt.trySetCmdPfx
  split
  · rfl
  · split <;> rfl

lemma getPrev_pointer (m : HistMgrSt) (p : String) :
    (m.getPrev p).1.pointer = max (m.pointer - 1) 0 := by
  simp only [HistMgrSt.getPrev, trySetCmdPfx_pointer]
  split <;> split <;> simp <;> omega

lemma getNext_pointer (m : HistMgrSt) (p : String) :
    (m.getNext p).1.pointer
      = min (m.pointer + 1)
          (((m.trySetCmdPfx p).store.lenPfx (m.trySetCmdPfx p).cmdPfx : Int) - 1) := by
  simp only [HistMgrSt.getNext, trySetCmdPfx_pointer]
  split <;> split <;> simp <;> omega

lemma getPrev_ret (m : HistMgrSt) (p : String)
    (hlt : max (m.pointer - 1) 0
      < ((m.trySetCmdPfx p).store.lenPfx (m.trySetCmdPfx p).cmdPfx : Int)) :
    (m.getPrev p).2
      = (((m.trySetCmdPfx p).store.filterPfx (m.trySetCmdPfx p).cmdPfx).get?
          (max (m.pointer - 1) 0).toNat).map (fun e => e.cmd) := by
  have hptr : (if (m.trySetCmdPfx p).pointer - 1 < 0 then (0:Int)
      else (m.trySetCmdPfx p).pointer - 1) = max (m.pointer - 1) 0 := by
    rw [trySetCmdPfx_pointer]
    split <;> omega
  simp only [HistMgrSt.getPrev, hptr]
  rw [if_neg (by omega :
    ¬ (m.trySetCmdPfx p).store.lenPfx (m.trySetCmdPfx p).cmdPfx = 0)]
  simp only [HistStoreSt.getPfx, pyGetIdx]
  rw [if_pos (by omega : (0:Int) ≤ max (m.pointer - 1) 0)]

lemma getNext_ret (m : HistMgrSt) (p : String)
    (hge : 0 ≤ min (m.pointer + 1)
      (((m.trySetCmdPfx p).store.lenPfx (m.trySetCmdPfx p).cmdPfx : Int) - 1)) :
    (m.getNext p).2
      = (((m.trySetCmdPfx p).store.filterPfx (m.trySetCmdPfx p).cmdPfx).get?
          (min (m.pointer + 1)
            (((m.trySetCmdPfx p).store.lenPfx (m.trySetCmdPfx p).cmdPfx : Int) - 1)).toNat).map
          (fun e => e.cmd) := by
  have hptr : (if ((m.trySetCmdPfx p).store.lenPfx (m.trySetCmdPfx p).cmdPfx : Int)
        ≤ (m.trySetCmdPfx p).pointer + 1
      then ((m.trySetCmdPfx p).store.lenPfx (m.trySetCmdPfx p).cmdPfx : Int) - 1
      else (m.trySetCmdPfx p).pointer + 1)
      = min (m.pointer + 1)
          (((m.trySetCmdPfx p).store.lenPfx (m.trySetCmdPfx p).cmdPfx : Int) - 1) := by
    rw [trySetCmdPfx_pointer]
    split <;> omega
  simp only [HistMgrSt.getNext, hptr]
  rw [if_neg (by omega :
    ¬ (m.trySetCmdPfx p).store.lenPfx (m.trySetCmdPfx p).cmdPfx = 0)]
  simp only [HistStoreSt.getPfx, pyGetIdx]
  rw [if_pos hge]

/-- Claim C4 amended: on a PREV navigation key the recall pointer is decremented by
    one and clamped to index zero (toward newer entries, since new entries
    are prepended at index zero), and on a NEXT navigation key it is
    incremented by one and clamped to the last index of the prefix-filtered
    list (toward older entries); whenever the clamped pointer is a valid
    index, the command text of the entry at that index is returned. -/
theorem c4_nav_clamped (m : HistMgrSt) (p : String) :
    (histNavigate m KeyKind.PREV p = some (m.getPrev p)
      ∧ histNavigate m KeyKind.NEXT p = some (m.getNext p))
    ∧ (m.getPrev p).1.pointer = max (m.pointer - 1) 0
    ∧ (m.getNext p).1.pointer
        = min (m.pointer + 1)
            (((m.trySetCmdPfx p).store.lenPfx (m.trySetCmdPfx p).cmdPfx : Int) - 1)
    ∧ (max (m.pointer - 1) 0
          < ((m.trySetCmdPfx p).store.lenPfx (m.trySetCmdPfx p).cmdPfx : Int) →
        (m.getPrev p).2
          = (((m.trySetCmdPfx p).store.filterPfx (m.trySetCmdPfx p).cmdPfx).get?
              (max (m.pointer - 1) 0).toNat).map (fun e => e.cmd))
    ∧ (0 ≤ min (m.pointer + 1)
          (((m.trySetCmdPfx p).store.lenPfx (m.trySetCmdPfx p).cmdPfx : Int) - 1) →
        (m.getNext p).2
          = (((m.trySetCmdPfx p).store.filterPfx (m.trySetCmdPfx p).cmdPfx).get?
              (min (m.pointer + 1)
                (((m.trySetCmdPfx p).store.lenPfx (m.trySetCmdPfx p).cmdPfx : Int) - 1)).toNat).map
              (fun e => e.cmd)) :=
  ⟨⟨rfl, rfl⟩, getPrev_pointer m p, getNext_pointer m p,
    fun hlt => getPrev_ret m p hlt, fun hge => getNext_ret m p hge⟩

/-- Concrete history manager for the C4 claims: two stored entries, the
    newest (alpha) at index zero, pointer at the newest entry, prefix context
    captured as the empty string. -/
def histC4 : HistMgrSt :=
  { store := { hists := [⟨"alpha", none⟩, ⟨"beta", none⟩]
             , maxEntries := 1000
             , saveRownum := none }
  , pointer := 0
  , cmdPfx := some ("") }

/-- Claim C4 counterexample: with the pointer on the newest entry, a PREV
    navigation key leaves the pointer clamped at index zero and returns the
    newest command alpha; it does not increment the pointer to the last index
    and return the older entry beta, as the claim states. -/
theorem c4_counterexample :
    histNavigate histC4 KeyKind.PREV ("") = some (histC4.getPrev (""))
    ∧ (histC4.getPrev ("")).1.pointer = 0
    ∧ (histC4.getPrev ("")).2 = some ("alpha")
    ∧ ¬ ((histC4.getPrev ("")).1.pointer = 1
          ∧ (histC4.getPrev ("")).2 = some ("beta")) := by
  refine ⟨rfl, ?_, ?_, ?_⟩ <;> decide

/-- Witness for C4: the amended theorem applied at the concrete manager with
    both validity hypotheses discharged. -/
theorem c4_witness :
    (histC4.getPrev ("")).2
      = (((histC4.trySetCmdPfx ("")).store.filterPfx (histC4.trySetCmdPfx ("")).cmdPfx).get?
          (max (histC4.pointer - 1) 0).toNat).map (fun e => e.cmd) :=
  (c4_nav_clamped histC4 ("")).2.2.2.1 (by decide)

lemma addLoop_fresh (N : Nat) : ∀ (rest newHists : List HistEntry) (newCmds : List String),
    newCmds = newHists.map (fun e => e.cmd) →
    ((rest.map fun e => e.cmd)).Nodup →
    (∀ h ∈ rest, h.cmd ∉ newCmds) →
    newHists.length < N →
    addLoop N rest newHists newCmds = newHists ++ rest.take (N - newHists.length) := by
  intro rest
  induction rest with
  | nil => intro nh nc _ _ _ _; simp [addLoop]
  | cons h rest ih =>
    intro nh nc hnc hnd hfresh hlen
    rw [List.map_cons, List.nodup_cons] at hnd
    have hmem : h.cmd ∉ nc := hfresh h (by simp)
    unfold addLoop
    rw [if_neg hmem]
    by_cases hN : N ≤ (nh ++ [h]).length
    · rw [if_pos hN]
      simp only [List.length_append, List.length_cons, List.length_nil] at hN
      have h1 : N - nh.length = 1 := by omega
      rw [h1, List.take_succ_cons, List.take_zero]
    · rw [if_neg hN]
      simp only [List.length_append, List.length_cons, List.length_nil] at hN
      rw [ih (nh ++ [h]) (nc ++ [h.cmd]) (by simp [hnc]) hnd.2 ?_ (by simp; omega)]
      · have h1 : N - nh.length = (N - (nh.length + 1)) + 1 := by omega
        rw [h1, List.take_succ_cons]
        simp
      · intro h2 hm
        simp only [List.mem_append, List.mem_singleton, not_or]
        refine ⟨hfresh h2 (List.mem_cons_of_mem h hm), ?_⟩
        intro he
        exact hnd.1 (he ▸ List.mem_map_of_mem (fun e => e.cmd) hm)

/-- HistStore.add of a fresh stripped command on a store with deduplicated
    command texts: the new entry is prepended and the old entries are kept up
    to one below the cap. Requires a cap of at least two; see the C5
    counterexample for what happens at cap one. -/
lemma add_fresh (st : HistStoreSt) (cmd : String) (row : Option String)
    (hnd : ((st.hists.map fun e => e.cmd)).Nodup)
    (hfresh : pyStrip cmd ∉ st.hists.map (fun e => e.cmd))
    (hN : 1 < st.maxEntries) :
    (st.add cmd row).hists
      = ⟨pyStrip cmd, row⟩ :: st.hists.take (st.maxEntries - 1) := by
  unfold HistStoreSt.add
  rw [addLoop_fresh st.maxEntries st.hists [⟨pyStrip cmd, row⟩] [pyStrip cmd] rfl hnd ?_
    (by simp; omega)]
  · simp
  · intro h hm
    simp only [List.mem_singleton]
    intro he
    exact hfresh (by rw [← he]; exact List.mem_map_of_mem _ hm)

/-- Folding HistStore.add over a list of command texts in order, with no
    associated rows. -/
def histAddAll (st : HistStoreSt) (cmds : List String) : HistStoreSt :=
  cmds.foldl (fun s c => s.add c none) st

lemma histAddAll_append (st : HistStoreSt) (cmds : List String) (c : String) :
    histAddAll st (cmds ++ [c]) = (histAddAll st cmds).add c none := by
  unfold histAddAll
  rw [List.foldl_append]
  rfl

lemma add_maxEntries (st : HistStoreSt) (c : String) (r : Option String) :
    (st.add c r).maxEntries = st.maxEntries := rfl

lemma histAddAll_maxEntries : ∀ (cmds : List String) (st : HistStoreSt),
    (histAddAll st cmds).maxEntries = st.maxEntries := by
  intro cmds
  induction cmds with
  | nil => intro st; rfl
  | cons c cs ih =>
    intro st
    have : histAddAll st (c :: cs) = histAddAll (st.add c none) cs := rfl
    rw [this, ih]
    rfl

lemma histAddAll_distinct (N : Nat) (hN : 2 ≤ N) :
    ∀ (cmds : List String), ((cmds.map pyStrip)).Nodup →
    (histAddAll ⟨[], N, none⟩ cmds).hists.map (fun e => e.cmd)
      = ((cmds.map pyStrip).reverse).take N := by
  intro cmds
  induction cmds using List.reverseRecOn with
  | nil => intro _; simp [histAddAll]
  | append_singleton ks k ih =>
    intro hnd
    rw [List.map_append, List.nodup_append] at hnd
    have hnd0 : ((ks.map pyStrip)).Nodup := hnd.1
    have hk : pyStrip k ∉ ks.map pyStrip := fun hmem => hnd.2.2 hmem (by simp)
    have ihk := ih hnd0
    have hmax : (histAddAll ⟨[], N, none⟩ ks).maxEntries = N := histAddAll_maxEntries ks _
    have hndh : (((histAddAll ⟨[], N, none⟩ ks).hists.map fun e => e.cmd)).Nodup := by
      rw [ihk]
      exact (List.take_sublist _ _).nodup (List.nodup_reverse.mpr hnd0)
    have hfresh : pyStrip k ∉ (histAddAll ⟨[], N, none⟩ ks).hists.map (fun e => e.cmd) := by
      rw [ihk]
      intro hmem
      exact hk (List.mem_reverse.mp ((List.take_sublist _ _).subset hmem))
    obtain ⟨M, hM⟩ : ∃ M, N = M + 1 := ⟨N - 1, by omega⟩
    rw [histAddAll_append, add_fresh _ k none hndh hfresh (by rw [hmax]; omega)]
    rw [hmax, List.map_cons, List.map_take, ihk]
    rw [List.map_append, List.map_singleton, List.reverse_append, List.reverse_singleton,
      List.singleton_append]
    rw [List.take_take]
    subst hM
    simp only [Nat.add_sub_cancel, List.take_succ_cons]
    congr 2
    omega

/-- Claim C5 amended: for every cap N of at least two, adding N plus one entries
    with pairwise-distinct stripped command texts to an empty store capped at
    N leaves exactly N entries, the newest at the front and the oldest
    evicted (the surviving command texts are the last N added, newest
    first). At cap one the store ends with two entries instead; see the
    counterexample. -/
theorem c5_cap_eviction (N : Nat) (hN : 2 ≤ N) (cmds : List String)
    (hlen : cmds.length = N + 1) (hnd : ((cmds.map pyStrip)).Nodup) :
    (histAddAll ⟨[], N, none⟩ cmds).hists.length = N
    ∧ (histAddAll ⟨[], N, none⟩ cmds).hists.map (fun e => e.cmd)
        = ((cmds.map pyStrip).reverse).take N := by
  have h := histAddAll_distinct N hN cmds hnd
  refine ⟨?_, h⟩
  have hlen2 := congrArg List.length h
  simp only [List.length_map, List.length_take, List.length_reverse, hlen] at hlen2
  omega

/-- Witness for C5: cap two, three distinct commands added; the store keeps
    exactly the last two, newest first. -/
theorem c5_witness :
    (histAddAll ⟨[], 2, none⟩ (["a", "b", "c"])).hists.length = 2
    ∧ (histAddAll ⟨[], 2, none⟩ (["a", "b", "c"])).hists.map (fun e => e.cmd)
        = (((["a", "b", "c"] : List String).map pyStrip).reverse).take 2 :=
  c5_cap_eviction 2 (by decide) (["a", "b", "c"]) (by decide) (by decide)

/-- Claim C5 counterexample: a store capped at one holds two entries after two
    distinct adds, because the cap check of the accumulation loop runs only
    after an append; so the claimed bound fails at N equal one. -/
theorem c5_counterexample :
    (histAddAll ⟨[], 1, none⟩ (["a", "b"])).hists.length = 2
    ∧ ¬ ((histAddAll ⟨[], 1, none⟩ (["a", "b"])).hists.length = 1) := by
  constructor <;> decide

/-- Identity of an OS window as used for alias keys and selection matching
    across resets: the queryable string fields. -/
structure WinInfo where
  title : String
  exe : String
deriving DecidableEq

/-- ManagedWindow: the stable ordinal number assigned at reset time, the
    wrapped window info, and the mutable display flag. The ordinal is unique
    within one reset generation and models Python object identity. -/
structure MWin where
  num : Nat
  winfo : WinInfo
  displayed : Bool
deriving DecidableEq

/-- WinManager.get_alias on an alias dict modelled as an association list in
    insertion order: the alias of a window info, empty string when absent. -/
def aliasGet (al : List (WinInfo × String)) (wi : WinInfo) : String :=
  match al.find? (fun q => decide (q.1 = wi)) with
  | some q => q.2
  | none => ""

/-- State of WinManager: all known windows, the selected window (by its
    unique ordinal), the order key, and the alias dict. -/
structure WMState where
  allwins : List MWin
  selected : Option Nat
  orderby : Option String
  aliasMap : List (WinInfo × String)
deriving DecidableEq

/-- The sort key used by the wins property for the current order key. -/
def orderKeyOf (s : WMState) (w : MWin) : String :=
  if s.orderby = some ("alias") then aliasGet s.aliasMap w.winfo
  else if s.orderby = some ("exe") then w.winfo.exe
  else w.winfo.title

/-- The wins property of WinManager: the displayed windows, sorted by the
    order key when one is set (Python sorted is a stable sort). -/
def WMState.wins (s : WMState) : List MWin :=
  match s.orderby with
  | none => s.allwins.filter (fun w => w.displayed)
  | some _ => (s.allwins.filter (fun w => w.displayed)).mergeSort
      (fun a b => decide (orderKeyOf s a ≤ orderKeyOf s b))

/-- The selected_win property: the managed window carrying the selected
    ordinal. -/
def WMState.selectedWin (s : WMState) : Option MWin :=
  s.selected.bind (fun n => s.allwins.find? (fun w => decide (w.num = n)))

/-- The selected_index property: zero when nothing is selected, else the
    index of the selected window in the wins list. -/
def WMState.selectedIndex (s : WMState) : Nat :=
  match s.selected with
  | none => 0
  | some n => s.wins.findIdx (fun w => decide (w.num = n))

/-- The selection-repair loop of WinManager.filter: walk the visible windows
    in display order; the first accumulator is the last window left displayed
    so far, the second is the selection, moved to the first accumulator (or
    cleared) when the walked window is the selected one and gets hidden. -/
def filtLoop (pred : MWin → Bool) : List MWin → Option Nat → Option Nat → Option Nat
  | [], _, sel => sel
  | w :: rest, prev, sel =>
    filtLoop pred rest
      (if pred w then some w.num else prev)
      (if pred w = false ∧ sel = some w.num then prev else sel)

/-- WinManager.filter: every currently displayed window gets the predicate
    value as its new display flag (hidden windows stay hidden), and the
    selection is repaired by the loop over the pre-filter display order. -/
def WMState.filterOp (s : WMState) (pred : MWin → Bool) : WMState :=
  { s with
    allwins := s.allwins.map
      (fun w => if w.displayed then { w with displayed := pred w } else w),
    selected := filtLoop pred s.wins none s.selected }

/-- The should_display predicate built inside WinManager.filter from the
    command text, the window text accessor and the exact flag: an empty
    window text never displays, else the exact or choice comparison runs. -/
def shouldDisplay (cmdtext : String) (getwintext : MWin → String) (exactMode : Bool)
    (w : MWin) : Bool :=
  if getwintext w = "" then false
  else if exactMode then StrCompare.exact cmdtext (getwintext w)
  else StrCompare.choice cmdtext (getwintext w)

/-- WinManager.set_orderby: an empty key clears the ordering; otherwise the
    first of title, exe, alias having the key as a prefix is chosen; no match
    clears the ordering. The Bool reports whether a valid key was set. -/
def WMState.setOrderby (s : WMState) (key : String) : WMState × Bool :=
  if key = "" then ({ s with orderby := none }, false)
  else if pyStartsWith ("title") key then ({ s with orderby := some ("title") }, true)
  else if pyStartsWith ("exe") key then ({ s with orderby := some ("exe") }, true)
  else if pyStartsWith ("alias") key then ({ s with orderby := some ("alias") }, true)
  else ({ s with orderby := none }, false)

/-- One step of the enumeration loop of WinManager.reset: skip excluded
    window infos, otherwise append a fresh displayed managed window with the
    next ordinal, reselecting it when its info equals the previously selected
    info (a later equal info wins, as in the Python loop). -/
def resetStep (excl : WinInfo → Bool) (selwinfo : Option WinInfo)
    (acc : List MWin × Option Nat × Nat) (wi : WinInfo) :
    List MWin × Option Nat × Nat :=
  if excl wi then acc
  else
    (acc.1 ++ [⟨acc.2.2, wi, true⟩],
     if some wi = selwinfo then some acc.2.2 else acc.2.1,
     acc.2.2 + 1)

/-- The enumeration loop of WinManager.reset over the fresh window list,
    starting from an empty window list, no selection, and ordinal one. -/
def resetScan (excl : WinInfo → Bool) (selwinfo : Option WinInfo)
    (winlist : List WinInfo) : List MWin × Option Nat × Nat :=
  winlist.foldl (resetStep excl selwinfo) ([], none, 1)

/-- WinManager.reset: replace all windows by a fresh enumeration excluding
    the excluded infos, clear the order key, reselect the previously selected
    window by info equality when it reappears, else select the first window
    if any. -/
def WMState.reset (s : WMState) (winlist : List WinInfo) (excl : WinInfo → Bool) :
    WMState :=
  { s with
    allwins := (resetScan excl (s.selectedWin.map (fun w => w.winfo)) winlist).1,
    orderby := none,
    selected :=
      match (resetScan excl (s.selectedWin.map (fun w => w.winfo)) winlist).2.1 with
      | some n => some n
      | none =>
        ((resetScan excl (s.selectedWin.map (fun w => w.winfo)) winlist).1.head?).map
          (fun w => w.num) }

/-- Pop of the Python dict: remove the entry of the given key, none key means
    no change (the pop with a None default in set_alias). -/
def dictPopKey (al : List (WinInfo × String)) (k : Option WinInfo) :
    List (WinInfo × String) :=
  match k with
  | none => al
  | some key => al.filter (fun q => !(decide (q.1 = key)))

/-- Assignment on the Python dict: an existing key is updated in place
    (insertion order kept), a new key is appended at the end. -/
def dictInsert (al : List (WinInfo × String)) (key : WinInfo) (v : String) :
    List (WinInfo × String) :=
  if al.any (fun q => decide (q.1 = key)) then
    al.map (fun q => if q.1 = key then (key, v) else q)
  else al ++ [(key, v)]

/-- The reverse lookup built by set_alias from dict(zip(values, keys)): the
    key of the last entry carrying the value, when any does. -/
def lookupOwner (al : List (WinInfo × String)) (v : String) : Option WinInfo :=
  ((al.filter (fun q => decide (q.2 = v))).getLast?).map (fun q => q.1)

/-- The in-memory prune performed by the save of the alias file: entries with
    an empty alias or a window info outside the known windows are dropped. -/
def pruneAlias (al : List (WinInfo × String)) (univ : List WinInfo) :
    List (WinInfo × String) :=
  al.filter (fun q => !(decide (q.2 = "")) && decide (q.1 ∈ univ))

/-- WinManager.set_alias: nothing happens without a window; otherwise the
    current owner of the alias text (the last key carrying it) is popped, the
    mapping of the window is set (in place or appended), and the save prunes
    empty aliases and unknown windows. -/
def WMState.setAlias (s : WMState) (mwin : Option MWin) (aliasTxt : String) : WMState :=
  match mwin with
  | none => s
  | some m =>
      { s with aliasMap :=
          (pruneAlias
            (dictInsert (dictPopKey s.aliasMap (lookupOwner s.aliasMap aliasTxt))
              m.winfo aliasTxt)
            (s.allwins.map (fun w => w.winfo))) }

/-- WinManager.delete_all_alias: the mapping is cleared wholesale. -/
def WMState.deleteAllAlias (s : WMState) : WMState :=
  { s with aliasMap := [] }

/-- The kinds of QuickWin commands handled by the processor. -/
inductive CommandKind where
  | UNKNOWN
  | TITLE
  | EXE
  | SET
  | GET
  | LIMIT
  | DELETE
  | ORDER
deriving DecidableEq

/-- A QuickWin command. -/
structure Command where
  kind : CommandKind
  text : String
deriving DecidableEq

/-- One iteration of the command loop of the processor handle_incomplete
    method: title, exe, get-alias and limit commands filter the list at once,
    order-by sets the order key at once; set-alias, delete-all and unknown
    commands only replace the deferred completion command. -/
def handleIncompleteStep (acc : WMState × Option Command) (cmd : Command) :
    WMState × Option Command :=
  match cmd.kind with
  | CommandKind.TITLE =>
      (acc.1.filterOp (shouldDisplay cmd.text (fun w => w.winfo.title) false), acc.2)
  | CommandKind.EXE =>
      (acc.1.filterOp (shouldDisplay cmd.text (fun w => w.winfo.exe) false), acc.2)
  | CommandKind.GET =>
      (acc.1.filterOp (shouldDisplay cmd.text (fun w => aliasGet acc.1.aliasMap w.winfo) false),
        acc.2)
  | CommandKind.LIMIT =>
      match acc.1.selectedWin with
      | some mw => (acc.1.filterOp (shouldDisplay mw.winfo.exe (fun w => w.winfo.exe) true), acc.2)
      | none => acc
  | CommandKind.ORDER => ((acc.1.setOrderby cmd.text).1, acc.2)
  | CommandKind.SET => (acc.1, some cmd)
  | CommandKind.DELETE => (acc.1, some cmd)
  | CommandKind.UNKNOWN => (acc.1, some cmd)

/-- The processor handle_incomplete method: apply the parsed commands in
    encounter order, returning the final window-manager state and the
    deferred completion command. -/
def handleIncomplete (s : WMState) (cmds : List Command) : WMState × Option Command :=
  cmds.foldl handleIncompleteStep (s, none)

/-- The accumulator view of the repair loop: the ordinal of the last entry of
    the list satisfying the predicate, the initial accumulator when none
    does. -/
def lastMatch (pred : MWin → Bool) : List MWin → Option Nat → Option Nat
  | [], acc => acc
  | x :: rest, acc => lastMatch pred rest (if pred x then some x.num else acc)

/-- The nearest entry before the entry with ordinal n in the display-order
    list that satisfies the predicate: the last predicate-satisfying entry of
    the prefix strictly before the first entry with ordinal n. -/
def lastVisibleBefore (pred : MWin → Bool) (l : List MWin) (n : Nat) : Option Nat :=
  lastMatch pred (l.takeWhile (fun x => decide (x.num ≠ n))) none

/-- The selection invariant of the engine, as an executable check: a selected
    ordinal always belongs to some displayed window. -/
def WMState.selInvB (s : WMState) : Bool :=
  match s.selected with
  | none => true
  | some n => s.allwins.any (fun w => decide (w.num = n) && w.displayed)

/-- Ordinals are pairwise distinct (holds for every reset generation). -/
@[reducible] def WMState.numsNodup (s : WMState) : Prop :=
  ((s.allwins.map fun w => w.num)).Nodup

/-- Resolution of the selection as rendered: an empty visible set forces an
    empty selection, and on a non-empty visible set the selected index (zero
    for an empty selection) is a valid index of the wins list. -/
def WMState.resolves (s : WMState) : Prop :=
  (s.wins = [] → s.selected = none) ∧ (s.wins ≠ [] → s.selectedIndex < s.wins.length)

lemma mem_wins_iff (s : WMState) (w : MWin) :
    w ∈ s.wins ↔ w ∈ s.allwins ∧ w.displayed = true := by
  unfold WMState.wins
  cases ho : s.orderby with
  | none => simp [List.mem_filter]
  | some k =>
    rw [(List.mergeSort_perm _ _).mem_iff]
    simp [List.mem_filter]

lemma wins_length (s : WMState) :
    s.wins.length = (s.allwins.filter fun w => w.displayed).length := by
  unfold WMState.wins
  cases ho : s.orderby with
  | none => rfl
  | some k => exact (List.mergeSort_perm _ _).length_eq

lemma wins_eq_nil_iff (s : WMState) :
    s.wins = [] ↔ (s.allwins.filter fun w => w.displayed) = [] := by
  rw [← List.length_eq_zero, ← List.length_eq_zero, wins_length]

lemma wins_nums_nodup (s : WMState) (h : s.numsNodup) :
    ((s.wins.map fun x => x.num)).Nodup := by
  have hf : (((s.allwins.filter fun x => x.displayed).map fun x => x.num)).Nodup :=
    List.Nodup.sublist ((List.filter_sublist _).map _) h
  unfold WMState.wins
  cases ho : s.orderby with
  | none => exact hf
  | some k => exact (((List.mergeSort_perm _ _).map _).nodup_iff).mpr hf

lemma resolves_of (s : WMState) (hinv : s.selInvB = true) : s.resolves := by
  constructor
  · intro hnil
    cases hsel : s.selected with
    | none => rfl
    | some n =>
      exfalso
      have hinv2 : s.allwins.any (fun w => decide (w.num = n) && w.displayed) = true := by
        unfold WMState.selInvB at hinv
        rw [hsel] at hinv
        exact hinv
      rcases List.any_eq_true.mp hinv2 with ⟨w, hw, hwp⟩
      rw [Bool.and_eq_true, decide_eq_true_eq] at hwp
      have hmem : w ∈ s.wins := (mem_wins_iff s w).mpr ⟨hw, hwp.2⟩
      rw [hnil] at hmem
      cases hmem
  · intro hne
    cases hsel : s.selected with
    | none =>
      have h0 : s.selectedIndex = 0 := by
        unfold WMState.selectedIndex
        rw [hsel]
      rw [h0, List.length_pos]
      exact hne
    | some n =>
      have hidx : s.selectedIndex = s.wins.findIdx (fun w => decide (w.num = n)) := by
        unfold WMState.selectedIndex
        rw [hsel]
      rw [hidx]
      apply List.findIdx_lt_length_of_exists
      have hinv2 : s.allwins.any (fun w => decide (w.num = n) && w.displayed) = true := by
        unfold WMState.selInvB at hinv
        rw [hsel] at hinv
        exact hinv
      rcases List.any_eq_true.mp hinv2 with ⟨w, hw, hwp⟩
      rw [Bool.and_eq_true, decide_eq_true_eq] at hwp
      exact ⟨w, (mem_wins_iff s w).mpr ⟨hw, hwp.2⟩, by simp [hwp.1]⟩

lemma filtLoop_keep (pred : MWin → Bool) :
    ∀ (l : List MWin) (prev sel : Option Nat),
    (∀ w ∈ l, sel = some w.num → pred w = true) →
    filtLoop pred l prev sel = sel := by
  intro l
  induction l with
  | nil => intro prev sel _; rfl
  | cons w l ih =>
    intro prev sel hkeep
    have hcond : ¬ (pred w = false ∧ sel = some w.num) := by
      rintro ⟨hf, hs⟩
      rw [hkeep w (List.mem_cons_self w l) hs] at hf
      simp at hf
    unfold filtLoop
    rw [if_neg hcond]
    exact ih _ sel (fun x hx => hkeep x (List.mem_cons_of_mem w hx))

lemma filtLoop_repair (pred : MWin → Bool) (w : MWin) (hw : pred w = false) :
    ∀ (l1 l2 : List MWin) (prev : Option Nat),
    (∀ x ∈ l1, x.num ≠ w.num) →
    (∀ x ∈ l1, ∀ y ∈ l2, x.num ≠ y.num) →
    (∀ y ∈ l2, prev ≠ some y.num) →
    filtLoop pred (l1 ++ w :: l2) prev (some w.num) = lastMatch pred l1 prev := by
  intro l1
  induction l1 with
  | nil =>
    intro l2 prev _ _ hprev
    rw [List.nil_append]
    unfold filtLoop
    rw [if_neg (show ¬ (pred w = true) by simp [hw]),
      if_pos (show pred w = false ∧ some w.num = some w.num from ⟨hw, rfl⟩)]
    exact filtLoop_keep pred l2 prev prev (fun y hy hsy => absurd hsy (hprev y hy))
  | cons a l1 ih =>
    intro l2 prev ha hdisj hprev
    rw [List.cons_append]
    unfold filtLoop
    have hsel : ¬ (pred a = false ∧ (some w.num = some a.num)) := by
      rintro ⟨_, hs⟩
      have hh : w.num = a.num := by injection hs
      exact ha a (List.mem_cons_self a l1) hh.symm
    rw [if_neg hsel]
    have hprev2 : ∀ y ∈ l2, (if pred a then some a.num else prev) ≠ some y.num := by
      intro y hy
      by_cases hpa : pred a
      · rw [if_pos hpa]
        intro hc
        exact hdisj a (List.mem_cons_self a l1) y hy (by injection hc)
      · rw [if_neg hpa]
        exact hprev y hy
    rw [ih l2 (if pred a then some a.num else prev)
      (fun x hx => ha x (List.mem_cons_of_mem a hx))
      (fun x hx y hy => hdisj x (List.mem_cons_of_mem a hx) y hy) hprev2]
    rfl

lemma nums_split (l1 l2 : List MWin) (w : MWin)
    (hnd : ((((l1 ++ w :: l2)).map fun x => x.num)).Nodup) :
    (∀ x ∈ l1, x.num ≠ w.num) ∧ (∀ x ∈ l1, ∀ y ∈ l2, x.num ≠ y.num) := by
  rw [List.map_append, List.nodup_append] at hnd
  constructor
  · intro x hx heq
    exact hnd.2.2 (List.mem_map_of_mem _ hx)
      (by rw [List.map_cons, heq]; exact List.mem_cons_self _ _)
  · intro x hx y hy heq
    exact hnd.2.2 (List.mem_map_of_mem _ hx)
      (by rw [List.map_cons, heq]; exact List.mem_cons_of_mem _ (List.mem_map_of_mem _ hy))

lemma takeWhile_middle (p : MWin → Bool) (l1 l2 : List MWin) (w : MWin)
    (h1 : ∀ x ∈ l1, p x = true) (hw : p w = false) :
    ((l1 ++ w :: l2)).takeWhile p = l1 := by
  rw [List.takeWhile_append, List.takeWhile_eq_self_iff.mpr h1, if_pos rfl,
    List.takeWhile_cons_of_neg (by simp [hw]), List.append_nil]

/-- Claim C2: when the currently selected window, visible before the filter, is
    hidden by the filter, the new selection is the nearest preceding window
    in the current display order that remains visible after the filter; it is
    empty when no preceding window remains visible, regardless of later
    windows that stay visible. -/
theorem c2_selection_repair (s : WMState) (pred : MWin → Bool) (w : MWin)
    (hnd : s.numsNodup) (hm : w ∈ s.wins) (hsel : s.selected = some w.num)
    (hp : pred w = false) :
    (s.filterOp pred).selected = lastVisibleBefore pred s.wins w.num := by
  have hwnd := wins_nums_nodup s hnd
  rcases List.append_of_mem hm with ⟨l1, l2, hsplit⟩
  rw [hsplit] at hwnd
  have hfacts := nums_split l1 l2 w hwnd
  have hfo : (s.filterOp pred).selected = filtLoop pred s.wins none s.selected := rfl
  have htw : ((l1 ++ w :: l2)).takeWhile (fun x => decide (x.num ≠ w.num)) = l1 :=
    takeWhile_middle _ l1 l2 w (fun x hx => by simpa using hfacts.1 x hx) (by simp)
  rw [hfo, hsel, hsplit]
  rw [filtLoop_repair pred w hp l1 l2 none hfacts.1 hfacts.2 (by intro y hy; simp)]
  unfold lastVisibleBefore
  rw [htw]

/-- Concrete windows and state for the selection-engine witnesses: three
    visible windows with ordinals one, two, three, the second selected. -/
def winA : MWin := ⟨1, ⟨"Alpha", "a.exe"⟩, true⟩

def winB : MWin := ⟨2, ⟨"Beta", "b.exe"⟩, true⟩

def winC : MWin := ⟨3, ⟨"Gamma", "c.exe"⟩, true⟩

def wmABC : WMState :=
  { allwins := [winA, winB, winC], selected := some 2, orderby := none, aliasMap := [] }

/-- Witness for C2: with visible windows Alpha, Beta, Gamma and Beta
    selected, a filter hiding only Beta moves the selection to Alpha, and a
    filter hiding Alpha and Beta clears the selection although Gamma stays
    visible. -/
theorem c2_witness :
    (wmABC.filterOp (fun w => decide (w.num ≠ 2))).selected = some 1
    ∧ (wmABC.filterOp (fun w => decide (w.num = 3))).selected = none := by
  constructor
  · have h := c2_selection_repair wmABC (fun w => decide (w.num ≠ 2)) winB
      (by decide) (by decide) (by decide) (by decide)
    rw [h]
    decide
  · have h := c2_selection_repair wmABC (fun w => decide (w.num = 3)) winB
      (by decide) (by decide) (by decide) (by decide)
    rw [h]
    decide

lemma lastMatch_cases (pred : MWin → Bool) :
    ∀ (l : List MWin) (acc : Option Nat),
    lastMatch pred l acc = acc
      ∨ ∃ x ∈ l, pred x = true ∧ lastMatch pred l acc = some x.num := by
  intro l
  induction l with
  | nil => intro acc; exact Or.inl rfl
  | cons x l ih =>
    intro acc
    by_cases hp : pred x
    · have hstep : lastMatch pred (x :: l) acc = lastMatch pred l (some x.num) := by
        rw [lastMatch, if_pos hp]
      rcases ih (some x.num) with h | ⟨y, hy, hpy, hval⟩
      · exact Or.inr ⟨x, List.mem_cons_self x l, hp, by rw [hstep, h]⟩
      · exact Or.inr ⟨y, List.mem_cons_of_mem x hy, hpy, by rw [hstep, hval]⟩
    · have hstep : lastMatch pred (x :: l) acc = lastMatch pred l acc := by
        rw [lastMatch, if_neg hp]
      rcases ih acc with h | ⟨y, hy, hpy, hval⟩
      · exact Or.inl (by rw [hstep, h])
      · exact Or.inr ⟨y, List.mem_cons_of_mem x hy, hpy, by rw [hstep, hval]⟩

lemma filterOp_nums (s : WMState) (pred : MWin → Bool) :
    (((s.filterOp pred).allwins.map fun x => x.num)) = ((s.allwins.map fun x => x.num)) := by
  have hfo : (s.filterOp pred).allwins
      = s.allwins.map (fun w => if w.displayed then { w with displayed := pred w } else w) := rfl
  rw [hfo, List.map_map]
  apply List.map_congr_left
  intro a _
  by_cases h : a.displayed
  · simp [Function.comp, h]
  · simp [Function.comp, h]

lemma filterOp_numsNodup (s : WMState) (pred : MWin → Bool) (h : s.numsNodup) :
    (s.filterOp pred).numsNodup := by
  unfold WMState.numsNodup
  rw [filterOp_nums]
  exact h

lemma selInvB_of_witness (s : WMState) (n : Nat) (hsel : s.selected = some n)
    (w : MWin) (hw : w ∈ s.allwins) (hwn : w.num = n) (hwd : w.displayed = true) :
    s.selInvB = true := by
  have : s.allwins.any (fun x => decide (x.num = n) && x.displayed) = true :=
    List.any_eq_true.mpr ⟨w, hw, by simp [hwn, hwd]⟩
  unfold WMState.selInvB
  rw [hsel]
  exact this

lemma selInvB_of_none (s : WMState) (hsel : s.selected = none) : s.selInvB = true := by
  unfold WMState.selInvB
  rw [hsel]

lemma selInvB_elim (s : WMState) (n : Nat) (hsel : s.selected = some n)
    (hinv : s.selInvB = true) :
    ∃ w ∈ s.allwins, w.num = n ∧ w.displayed = true := by
  have hinv2 : s.allwins.any (fun w => decide (w.num = n) && w.displayed) = true := by
    unfold WMState.selInvB at hinv
    rw [hsel] at hinv
    exact hinv
  rcases List.any_eq_true.mp hinv2 with ⟨w, hw, hwp⟩
  rw [Bool.and_eq_true, decide_eq_true_eq] at hwp
  exact ⟨w, hw, hwp.1, hwp.2⟩

lemma filterOp_selInvB (s : WMState) (pred : MWin → Bool) (hnd : s.numsNodup)
    (hinv : s.selInvB = true) : (s.filterOp pred).selInvB = true := by
  have hfosel : (s.filterOp pred).selected = filtLoop pred s.wins none s.selected := rfl
  have hfa : (s.filterOp pred).allwins
      = s.allwins.map (fun x => if x.displayed then { x with displayed := pred x } else x) := rfl
  cases hsel : s.selected with
  | none =>
    apply selInvB_of_none
    rw [hfosel, hsel]
    exact filtLoop_keep pred s.wins none none (by intro x hx h; cases h)
  | some n =>
    rcases selInvB_elim s n hsel hinv with ⟨w, hw, hwn, hwd⟩
    have hmemw : w ∈ s.wins := (mem_wins_iff s w).mpr ⟨hw, hwd⟩
    have hwnd := wins_nums_nodup s hnd
    by_cases hpw : pred w = true
    · have hres : (s.filterOp pred).selected = some n := by
        rw [hfosel, hsel]
        apply filtLoop_keep
        intro x hx hxn
        have hxnum : x.num = n := by injection hxn with hh; exact hh.symm
        have hxw : x = w := List.inj_on_of_nodup_map hwnd hx hmemw (by rw [hxnum, hwn])
        rw [hxw]
        exact hpw
      apply selInvB_of_witness _ n hres ({ w with displayed := pred w })
      · rw [hfa]
        have hmm := List.mem_map_of_mem
          (fun x => if x.displayed then { x with displayed := pred x } else x) hw
        simpa [hwd] using hmm
      · simpa using hwn
      · simpa using hpw
    · have hpwf : pred w = false := by
        cases hb : pred w
        · rfl
        · exact absurd hb hpw
      rcases List.append_of_mem hmemw with ⟨l1, l2, hsplit⟩
      rw [hsplit] at hwnd
      have hfacts := nums_split l1 l2 w hwnd
      have hres : (s.filterOp pred).selected = lastMatch pred l1 none := by
        rw [hfosel, hsel, ← hwn, hsplit]
        exact filtLoop_repair pred w hpwf l1 l2 none hfacts.1 hfacts.2 (by intro y hy; simp)
      rcases lastMatch_cases pred l1 none with hcase | ⟨x, hx, hpx, hval⟩
      · apply selInvB_of_none
        rw [hres, hcase]
      · have hxmem : x ∈ s.wins := by
          rw [hsplit]
          exact List.mem_append_left _ hx
        have hxw := (mem_wins_iff s x).mp hxmem
        apply selInvB_of_witness _ x.num (by rw [hres, hval]) ({ x with displayed := pred x })
        · rw [hfa]
          have hmm := List.mem_map_of_mem
            (fun y => if y.displayed then { y with displayed := pred y } else y) hxw.1
          simpa [hxw.2] using hmm
        · simp
        · simpa using hpx

lemma setOrderby_fields (s : WMState) (k : String) :
    (s.setOrderby k).1.allwins = s.allwins ∧ (s.setOrderby k).1.selected = s.selected
      ∧ (s.setOrderby k).1.aliasMap = s.aliasMap := by
  unfold WMState.setOrderby
  split
  · exact ⟨rfl, rfl, rfl⟩
  · split
    · exact ⟨rfl, rfl, rfl⟩
    · split
      · exact ⟨rfl, rfl, rfl⟩
      · split
        · exact ⟨rfl, rfl, rfl⟩
        · exact ⟨rfl, rfl, rfl⟩

lemma selInvB_congr (t s : WMState) (hw : t.allwins = s.allwins)
    (hs : t.selected = s.selected) : t.selInvB = s.selInvB := by
  unfold WMState.selInvB
  rw [hw, hs]

lemma resetScan_go (excl : WinInfo → Bool) (selw : Option WinInfo) :
    ∀ (wl : List WinInfo) (ws : List MWin) (sel : Option Nat) (n : Nat),
    (ws.map (fun x => x.num) = List.range' 1 ws.length ∧ n = 1 + ws.length
      ∧ (sel = none ∨ ∃ w ∈ ws, sel = some w.num)
      ∧ (∀ w ∈ ws, w.displayed = true)) →
    (((wl.foldl (resetStep excl selw) (ws, sel, n)).1.map fun x => x.num)
        = List.range' 1 (wl.foldl (resetStep excl selw) (ws, sel, n)).1.length
      ∧ ((wl.foldl (resetStep excl selw) (ws, sel, n)).2.1 = none
          ∨ ∃ w ∈ (wl.foldl (resetStep excl selw) (ws, sel, n)).1,
              (wl.foldl (resetStep excl selw) (ws, sel, n)).2.1 = some w.num)
      ∧ (∀ w ∈ (wl.foldl (resetStep excl selw) (ws, sel, n)).1, w.displayed = true)) := by
  intro wl
  induction wl with
  | nil =>
    intro ws sel n h
    exact ⟨h.1, h.2.2.1, h.2.2.2⟩
  | cons wi wl ih =>
    intro ws sel n h
    rw [List.foldl_cons]
    by_cases he : excl wi
    · have hstep : resetStep excl selw (ws, sel, n) wi = (ws, sel, n) := by
        unfold resetStep
        rw [if_pos he]
      rw [hstep]
      exact ih ws sel n h
    · have hstep : resetStep excl selw (ws, sel, n) wi
          = (ws ++ [⟨n, wi, true⟩], (if some wi = selw then some n else sel), n + 1) := by
        unfold resetStep
        rw [if_neg he]
      rw [hstep]
      apply ih
      refine ⟨?_, ?_, ?_, ?_⟩
      · rw [List.map_append, h.1, List.length_append]
        simp [List.range'_concat, h.2.1]
      · simp only [List.length_append, List.length_cons, List.length_nil, h.2.1]
        omega
      · by_cases hm : some wi = selw
        · rw [if_pos hm]
          exact Or.inr ⟨⟨n, wi, true⟩, by simp, rfl⟩
        · rw [if_neg hm]
          rcases h.2.2.1 with hnone | ⟨w, hwmem, hweq⟩
          · exact Or.inl hnone
          · exact Or.inr ⟨w, List.mem_append_left _ hwmem, hweq⟩
      · intro w hwm
        rcases List.mem_append.mp hwm with h1 | h1
        · exact h.2.2.2 w h1
        · simp at h1
          rw [h1]

lemma resetScan_spec (excl : WinInfo → Bool) (selw : Option WinInfo) (wl : List WinInfo) :
    ((resetScan excl selw wl).1.map fun x => x.num)
        = List.range' 1 (resetScan excl selw wl).1.length
      ∧ ((resetScan excl selw wl).2.1 = none
          ∨ ∃ w ∈ (resetScan excl selw wl).1, (resetScan excl selw wl).2.1 = some w.num)
      ∧ (∀ w ∈ (resetScan excl selw wl).1, w.displayed = true) :=
  resetScan_go excl selw wl [] none 1 ⟨rfl, rfl, Or.inl rfl, fun w hw => by cases hw⟩

lemma reset_selInvB (s : WMState) (wl : List WinInfo) (excl : WinInfo → Bool) :
    (s.reset wl excl).selInvB = true := by
  have hspec := resetScan_spec excl (s.selectedWin.map (fun w => w.winfo)) wl
  have hfa : (s.reset wl excl).allwins
      = (resetScan excl (s.selectedWin.map (fun w => w.winfo)) wl).1 := rfl
  rcases hscan : (resetScan excl (s.selectedWin.map (fun w => w.winfo)) wl).2.1 with _ | n
  · rcases hhead : (resetScan excl (s.selectedWin.map (fun w => w.winfo)) wl).1.head? with _ | w0
    · apply selInvB_of_none
      show (match (resetScan excl (s.selectedWin.map (fun w => w.winfo)) wl).2.1 with
        | some n => some n
        | none => ((resetScan excl (s.selectedWin.map (fun w => w.winfo)) wl).1.head?).map
            (fun w => w.num)) = none
      rw [hscan, hhead]
      rfl
    · have hmem : w0 ∈ (resetScan excl (s.selectedWin.map (fun w => w.winfo)) wl).1 :=
        List.mem_of_mem_head? hhead
      apply selInvB_of_witness _ w0.num ?hs w0 (by rw [hfa]; exact hmem) rfl
        (hspec.2.2 w0 hmem)
      case hs =>
        show (match (resetScan excl (s.selectedWin.map (fun w => w.winfo)) wl).2.1 with
          | some n => some n
          | none => ((resetScan excl (s.selectedWin.map (fun w => w.winfo)) wl).1.head?).map
              (fun w => w.num)) = some w0.num
        rw [hscan, hhead]
        rfl
  · rcases hspec.2.1 with hnone | ⟨w, hwm, hweq⟩
    · rw [hscan] at hnone; cases hnone
    · rw [hscan] at hweq
      have hwn : w.num = n := by injection hweq with hh; exact hh.symm
      apply selInvB_of_witness _ n ?hs w (by rw [hfa]; exact hwm) hwn (hspec.2.2 w hwm)
      case hs =>
        show (match (resetScan excl (s.selectedWin.map (fun w => w.winfo)) wl).2.1 with
          | some n => some n
          | none => ((resetScan excl (s.selectedWin.map (fun w => w.winfo)) wl).1.head?).map
              (fun w => w.num)) = some n
        rw [hscan]

/-- Claim C3 counterexample state: an empty manager with the order key set to
    title. -/
def wmOrd : WMState :=
  { allwins := [], selected := none, orderby := some ("title"), aliasMap := [] }

/-- Claim C3 counterexample: reset does not leave the current order key unchanged;
    with the order key set to title, the key is none after a reset. -/
theorem c3_counterexample :
    (wmOrd.reset [] (fun _ => false)).orderby = none
    ∧ ¬ ((wmOrd.reset [] (fun _ => false)).orderby = wmOrd.orderby) := by
  constructor <;> decide

/-- Claim C3 amended: reset always clears the order key to none (ordering does not
    survive a reset), and assigns the ordinals one to N consecutively in
    enumeration order, skipping excluded windows, independent of any
    previously set order key. -/
theorem c3_reset_effect (s : WMState) (wl : List WinInfo) (excl : WinInfo → Bool) :
    (s.reset wl excl).orderby = none
    ∧ ((s.reset wl excl).allwins.map fun x => x.num)
        = List.range' 1 (s.reset wl excl).allwins.length := by
  constructor
  · rfl
  · have hfa : (s.reset wl excl).allwins
        = (resetScan excl (s.selectedWin.map (fun w => w.winfo)) wl).1 := rfl
    rw [hfa]
    exact (resetScan_spec excl (s.selectedWin.map (fun w => w.winfo)) wl).1

/-- Claim C1: after a filter, an order-by, or a reset applied to a state whose
    ordinals are unique and whose selection invariant holds, the rendered
    selection resolves against the visible set: an empty visible set forces
    an empty selection, and a non-empty visible set makes the selected index
    (zero when the selection is empty) a valid index of the wins list. -/
theorem c1_selection_resolution (s : WMState) (pred : MWin → Bool) (k : String)
    (wl : List WinInfo) (excl : WinInfo → Bool)
    (hnd : s.numsNodup) (hinv : s.selInvB = true) :
    (s.filterOp pred).resolves ∧ ((s.setOrderby k).1).resolves
      ∧ (s.reset wl excl).resolves := by
  refine ⟨resolves_of _ (filterOp_selInvB s pred hnd hinv), ?_,
    resolves_of _ (reset_selInvB s wl excl)⟩
  apply resolves_of
  rw [selInvB_congr ((s.setOrderby k).1) s (setOrderby_fields s k).1
    (setOrderby_fields s k).2.1]
  exact hinv

/-- Witness for C1: the invariants of the concrete three-window state hold by
    evaluation, and the theorem yields resolution for a hiding filter, a
    title ordering, and a reset to an empty universe. -/
theorem c1_witness :
    (wmABC.filterOp (fun w => decide (w.num = 3))).resolves
    ∧ ((wmABC.setOrderby ("title")).1).resolves
    ∧ (wmABC.reset [] (fun _ => false)).resolves :=
  c1_selection_resolution wmABC (fun w => decide (w.num = 3)) ("title") [] (fun _ => false)
    (by decide) (by decide)

lemma filterOp_visible (s : WMState) (pred : MWin → Bool) :
    ((s.filterOp pred).allwins.filter fun w => w.displayed)
      = ((s.allwins.filter fun w => w.displayed).filter pred) := by
  have hfa : (s.filterOp pred).allwins
      = s.allwins.map (fun w => if w.displayed then { w with displayed := pred w } else w) := rfl
  rw [hfa]
  induction s.allwins with
  | nil => rfl
  | cons w l ih =>
    by_cases hd : w.displayed
    · by_cases hp : pred w
      · have hw : ({ w with displayed := true } : MWin) = w := by
          cases w
          simp_all
        simp [List.filter_cons, hd, hp, ih, hw]
      · simp [List.filter_cons, hd, hp, ih]
    · simp [List.filter_cons, hd, ih]

lemma shouldDisplay_empty (getwintext : MWin → String) (exactMode : Bool) (w : MWin) :
    shouldDisplay ("") getwintext exactMode w = !(getwintext w == "") := by
  unfold shouldDisplay
  by_cases h : getwintext w = ""
  · simp [h]
  · rw [if_neg h]
    by_cases he : exactMode
    · simp [he, h, StrCompare.exact]
    · simp [he, h, StrCompare.choice]

/-- Claim C6 amended: a filter whose predicate text is empty keeps visible exactly
    the previously visible entries whose selected field value is non-empty;
    an entry whose field value is the empty string is hidden even by the
    empty predicate, because should_display rejects an empty window text
    before the matcher (whose argument check would accept) is consulted. -/
theorem c6_empty_predicate (s : WMState) (getwintext : MWin → String) (exactMode : Bool) :
    ((s.filterOp (shouldDisplay ("") getwintext exactMode)).allwins.filter fun w => w.displayed)
      = ((s.allwins.filter fun w => w.displayed).filter fun w => !(getwintext w == "")) := by
  rw [filterOp_visible]
  have hfun : shouldDisplay ("") getwintext exactMode = (fun w => !(getwintext w == "")) :=
    funext (shouldDisplay_empty getwintext exactMode)
  rw [hfun]

/-- Claim C6 counterexample state: one visible window with no alias stored. -/
def wmEmptyAlias : WMState :=
  { allwins := [winA], selected := some 1, orderby := none, aliasMap := [] }

/-- Claim C6 counterexample: the get-alias filter with an empty predicate hides a
    visible window whose alias is the empty string, so the empty predicate is
    not a passthrough for entries with an empty field value. -/
theorem c6_counterexample :
    (wmEmptyAlias.allwins.filter fun w => w.displayed) ≠ []
    ∧ ((wmEmptyAlias.filterOp
          (shouldDisplay ("") (fun w => aliasGet wmEmptyAlias.aliasMap w.winfo) false)).allwins.filter
        fun w => w.displayed) = [] := by
  constructor <;> decide

lemma handleIncompleteStep_aliasMap (acc : WMState × Option Command) (c : Command) :
    (handleIncompleteStep acc c).1.aliasMap = acc.1.aliasMap := by
  unfold handleIncompleteStep
  cases hk : c.kind with
  | TITLE => rfl
  | EXE => rfl
  | GET => rfl
  | LIMIT =>
    cases hsw : acc.1.selectedWin with
    | none => rfl
    | some mw => rfl
  | ORDER => exact (setOrderby_fields acc.1 c.text).2.2
  | SET => rfl
  | DELETE => rfl
  | UNKNOWN => rfl

lemma foldl_deferred_state :
    ∀ (cmds : List Command) (acc : WMState × Option Command),
    (∀ c ∈ cmds, c.kind = CommandKind.SET ∨ c.kind = CommandKind.DELETE
      ∨ c.kind = CommandKind.UNKNOWN) →
    (cmds.foldl handleIncompleteStep acc).1 = acc.1 := by
  intro cmds
  induction cmds with
  | nil => intro acc _; rfl
  | cons c cmds ih =>
    intro acc hkinds
    rw [List.foldl_cons]
    have hstep : (handleIncompleteStep acc c).1 = acc.1 := by
      rcases hkinds c (List.mem_cons_self c cmds) with h | h | h
      all_goals
        unfold handleIncompleteStep
        rw [h]
    rw [ih (handleIncompleteStep acc c) (fun x hx => hkinds x (List.mem_cons_of_mem c hx)),
      hstep]

lemma foldl_aliasMap :
    ∀ (cmds : List Command) (acc : WMState × Option Command),
    (cmds.foldl handleIncompleteStep acc).1.aliasMap = acc.1.aliasMap := by
  intro cmds
  induction cmds with
  | nil => intro acc; rfl
  | cons c cmds ih =>
    intro acc
    rw [List.foldl_cons, ih, handleIncompleteStep_aliasMap]

/-- Claim C9 amended: handle_incomplete applies the parsed commands in encounter
    order (a left fold, so a longer command list continues from the shorter
    prefix); a command list of only set-alias, delete-all and unknown
    commands leaves the window-manager state untouched before the commit
    (those commands are merely deferred), and no command of any kind changes
    the alias store before the commit; an order-by command, however, takes
    effect immediately on a non-commit keystroke (see the counterexample). -/
theorem c9_deferral (s : WMState) (cmds : List Command) :
    ((∀ c ∈ cmds, c.kind = CommandKind.SET ∨ c.kind = CommandKind.DELETE
        ∨ c.kind = CommandKind.UNKNOWN) → (handleIncomplete s cmds).1 = s)
    ∧ (handleIncomplete s cmds).1.aliasMap = s.aliasMap
    ∧ (∀ (more : List Command),
        handleIncomplete s (cmds ++ more)
          = more.foldl handleIncompleteStep (handleIncomplete s cmds)) :=
  ⟨fun h => foldl_deferred_state cmds (s, none) h,
   foldl_aliasMap cmds (s, none),
   fun more => List.foldl_append _ _ cmds more⟩

/-- Empty window-manager state for the C9 claims. -/
def wmEmpty : WMState :=
  { allwins := [], selected := none, orderby := none, aliasMap := [] }

/-- Claim C9 counterexample: an order-by command already changes the order key
    inside handle_incomplete, before any commit event, so order-by is not
    deferred like set-alias, delete-all and unknown. -/
theorem c9_counterexample :
    (handleIncomplete wmEmpty [⟨CommandKind.ORDER, "title"⟩]).1.orderby = some ("title")
    ∧ wmEmpty.orderby = none := by
  constructor <;> decide

/-- Witness for C9: a lone set-alias command leaves the state unchanged on a
    non-commit event. -/
theorem c9_witness :
    (handleIncomplete wmEmpty [⟨CommandKind.SET, "fin"⟩]).1 = wmEmpty :=
  (c9_deferral wmEmpty [⟨CommandKind.SET, "fin"⟩]).1 (by decide)

lemma filter_swap {α : Type} (p r : α → Bool) (l : List α) :
    (l.filter p).filter r = (l.filter r).filter p := by
  rw [List.filter_filter, List.filter_filter]
  congr 1
  funext a
  rw [Bool.and_comm]

lemma keys_nodup_pop (al : List (WinInfo × String)) (k : Option WinInfo)
    (h : ((al.map Prod.fst)).Nodup) : (((dictPopKey al k).map Prod.fst)).Nodup := by
  cases k with
  | none => exact h
  | some key => exact List.Nodup.sublist ((List.filter_sublist _).map _) h

lemma map_inplace_id (key : WinInfo) (x : String) :
    ∀ (al : List (WinInfo × String)), key ∉ al.map Prod.fst →
    al.map (fun q => if q.1 = key then (key, x) else q) = al := by
  intro al
  induction al with
  | nil => intro _; rfl
  | cons q al ih =>
    intro hk
    simp only [List.map_cons, List.mem_cons, not_or] at hk
    rw [List.map_cons, if_neg (fun h => hk.1 h.symm), ih hk.2]

lemma keys_map_inplace (key : WinInfo) (x : String) (al : List (WinInfo × String)) :
    ((al.map (fun q => if q.1 = key then (key, x) else q)).map Prod.fst)
      = al.map Prod.fst := by
  rw [List.map_map]
  apply List.map_congr_left
  intro q _
  by_cases h : q.1 = key
  · simp [Function.comp, h]
  · simp [Function.comp, h]

lemma keys_nodup_insert (al : List (WinInfo × String)) (key : WinInfo) (x : String)
    (h : ((al.map Prod.fst)).Nodup) : (((dictInsert al key x).map Prod.fst)).Nodup := by
  unfold dictInsert
  by_cases hmem : al.any (fun q => decide (q.1 = key))
  · rw [if_pos hmem, keys_map_inplace]
    exact h
  · rw [if_neg hmem, List.map_append]
    have hni : key ∉ al.map Prod.fst := by
      intro hc
      rcases List.mem_map.mp hc with ⟨q, hq, hqe⟩
      exact hmem (List.any_eq_true.mpr ⟨q, hq, by simp [hqe]⟩)
    simp [List.nodup_append, h, hni]

lemma keys_nodup_prune (al : List (WinInfo × String)) (univ : List WinInfo)
    (h : ((al.map Prod.fst)).Nodup) : (((pruneAlias al univ).map Prod.fst)).Nodup :=
  List.Nodup.sublist ((List.filter_sublist _).map _) h

lemma filter_val_pop (al : List (WinInfo × String)) (x : String)
    (hone : (al.filter (fun q => decide (q.2 = x))).length ≤ 1) :
    (dictPopKey al (lookupOwner al x)).filter (fun q => decide (q.2 = x)) = [] := by
  rcases hf : al.filter (fun q => decide (q.2 = x)) with _ | ⟨q, rest⟩
  · have hlo : lookupOwner al x = none := by
      unfold lookupOwner
      rw [hf]
      rfl
    rw [hlo]
    unfold dictPopKey
    exact hf
  · have hrest : rest = [] := by
      rw [hf] at hone
      simp only [List.length_cons] at hone
      exact List.eq_nil_of_length_eq_zero (by omega)
    subst hrest
    have hlo : lookupOwner al x = some q.1 := by
      unfold lookupOwner
      rw [hf]
      rfl
    rw [hlo]
    unfold dictPopKey
    rw [filter_swap, hf]
    simp

lemma filter_val_inplace (key : WinInfo) (x : String) :
    ∀ (al : List (WinInfo × String)),
    ((al.map Prod.fst)).Nodup →
    al.filter (fun q => decide (q.2 = x)) = [] →
    key ∈ al.map Prod.fst →
    (al.map (fun q => if q.1 = key then (key, x) else q)).filter
        (fun q => decide (q.2 = x))
      = [(key, x)] := by
  intro al
  induction al with
  | nil => intro _ _ hk; cases hk
  | cons q al ih =>
    intro hkeys hempty hk
    rw [List.map_cons, List.nodup_cons] at hkeys
    rw [List.map_cons, List.mem_cons] at hk
    rw [List.filter_cons] at hempty
    by_cases hqx : q.2 = x
    · rw [if_pos (by simp [hqx])] at hempty
      cases hempty
    · rw [if_neg (by simp [hqx])] at hempty
      rw [List.map_cons]
      by_cases hq : q.1 = key
      · rw [if_pos hq, List.filter_cons, if_pos (by simp)]
        have hni : key ∉ al.map Prod.fst := by
          rw [← hq]
          exact hkeys.1
        rw [map_inplace_id key x al hni, hempty]
      · rw [if_neg hq, List.filter_cons, if_neg (by simp [hqx])]
        apply ih hkeys.2 hempty
        rcases hk with h | h
        · exact absurd h.symm hq
        · exact h

lemma filter_val_insert (al : List (WinInfo × String)) (key : WinInfo) (x : String)
    (hkeys : ((al.map Prod.fst)).Nodup)
    (hempty : al.filter (fun q => decide (q.2 = x)) = []) :
    (dictInsert al key x).filter (fun q => decide (q.2 = x)) = [(key, x)] := by
  unfold dictInsert
  by_cases hmem : al.any (fun q => decide (q.1 = key))
  · rw [if_pos hmem]
    apply filter_val_inplace key x al hkeys hempty
    rcases List.any_eq_true.mp hmem with ⟨q, hq, hqe⟩
    rw [decide_eq_true_eq] at hqe
    rw [← hqe]
    exact List.mem_map_of_mem Prod.fst hq
  · rw [if_neg hmem, List.filter_append, hempty]
    simp

lemma mem_dictPopKey (al : List (WinInfo × String)) (key : WinInfo) :
    ∀ q ∈ dictPopKey al (some key), q ∈ al ∧ q.1 ≠ key := by
  intro q hq
  unfold dictPopKey at hq
  rw [List.mem_filter] at hq
  refine ⟨hq.1, ?_⟩
  simpa using hq.2

lemma mem_dictInsert (al : List (WinInfo × String)) (key : WinInfo) (x : String) :
    ∀ q ∈ dictInsert al key x, q = (key, x) ∨ (q ∈ al ∧ q.1 ≠ key) := by
  intro q hq
  unfold dictInsert at hq
  by_cases hmem : al.any (fun p => decide (p.1 = key))
  · rw [if_pos hmem] at hq
    rcases List.mem_map.mp hq with ⟨p, hp, hpe⟩
    by_cases hpk : p.1 = key
    · rw [if_pos hpk] at hpe
      exact Or.inl hpe.symm
    · rw [if_neg hpk] at hpe
      exact Or.inr ⟨hpe ▸ hp, hpe ▸ hpk⟩
  · rw [if_neg hmem] at hq
    rcases List.mem_append.mp hq with h | h
    · refine Or.inr ⟨h, ?_⟩
      intro hc
      exact hmem (List.any_eq_true.mpr ⟨q, h, by simp [hc]⟩)
    · exact Or.inl (List.mem_singleton.mp h)

lemma mem_pruneAlias (al : List (WinInfo × String)) (univ : List WinInfo) :
    ∀ q ∈ pruneAlias al univ, q ∈ al := by
  intro q hq
  unfold pruneAlias at hq
  exact (List.mem_filter.mp hq).1

lemma aliasGet_of_not_mem (al : List (WinInfo × String)) (key : WinInfo)
    (h : ∀ q ∈ al, q.1 ≠ key) : aliasGet al key = "" := by
  unfold aliasGet
  rw [List.find?_eq_none.mpr (fun q hq => by simp [h q hq])]

lemma aliasGet_of_mem_nodup (al : List (WinInfo × String)) (key : WinInfo) (v : String)
    (hmem : (key, v) ∈ al) (hkeys : ((al.map Prod.fst)).Nodup) :
    aliasGet al key = v := by
  induction al with
  | nil => cases hmem
  | cons q al ih =>
    rw [List.map_cons, List.nodup_cons] at hkeys
    by_cases hq : q.1 = key
    · have hqe : q = (key, v) := by
        rcases List.mem_cons.mp hmem with h | h
        · exact h.symm
        · exfalso
          apply hkeys.1
          rw [hq]
          exact List.mem_map_of_mem Prod.fst h
      unfold aliasGet
      rw [List.find?_cons_of_pos _ (by simp [hq]), hqe]
    · unfold aliasGet
      rw [List.find?_cons_of_neg _ (by simp [hq])]
      have hmem2 : (key, v) ∈ al := by
        rcases List.mem_cons.mp hmem with h | h
        · exact absurd (show q.1 = key by rw [← h]) hq
        · exact h
      have hrec := ih hmem2 hkeys.2
      unfold aliasGet at hrec
      exact hrec

lemma setAliasMap_spec (al : List (WinInfo × String)) (univ : List WinInfo)
    (key : WinInfo) (x : String)
    (hkeys : ((al.map Prod.fst)).Nodup)
    (hone : (al.filter (fun q => decide (q.2 = x))).length ≤ 1)
    (hx : x ≠ "") (hk : key ∈ univ) :
    ((((pruneAlias (dictInsert (dictPopKey al (lookupOwner al x)) key x) univ)).map
        Prod.fst)).Nodup
    ∧ (pruneAlias (dictInsert (dictPopKey al (lookupOwner al x)) key x) univ).filter
        (fun q => decide (q.2 = x)) = [(key, x)] := by
  have hpop := filter_val_pop al x hone
  have hkeys1 : (((dictPopKey al (lookupOwner al x)).map Prod.fst)).Nodup :=
    keys_nodup_pop al _ hkeys
  have hins := filter_val_insert (dictPopKey al (lookupOwner al x)) key x hkeys1 hpop
  have hkeys2 := keys_nodup_insert (dictPopKey al (lookupOwner al x)) key x hkeys1
  constructor
  · exact keys_nodup_prune _ univ hkeys2
  · unfold pruneAlias
    rw [filter_swap, hins, List.filter_cons, if_pos (by simp [hx, hk])]
    rfl

/-- Claim C7: on an alias store with pairwise-distinct keys and at most one owner
    of the non-empty alias x, setting x on window A and then on window B
    (both known windows, A different from B) leaves A unaliased and makes B
    the unique owner of x: a non-empty alias moves between windows and stays
    globally unique. -/
theorem c7_alias_unique (s : WMState) (mA mB : MWin) (x : String)
    (hkeys : ((s.aliasMap.map Prod.fst)).Nodup)
    (hone : (s.aliasMap.filter (fun q => decide (q.2 = x))).length ≤ 1)
    (hx : x ≠ "") (hAB : mA.winfo ≠ mB.winfo)
    (hA : mA.winfo ∈ s.allwins.map (fun w => w.winfo))
    (hB : mB.winfo ∈ s.allwins.map (fun w => w.winfo)) :
    aliasGet ((s.setAlias (some mA) x).setAlias (some mB) x).aliasMap mA.winfo = ""
    ∧ aliasGet ((s.setAlias (some mA) x).setAlias (some mB) x).aliasMap mB.winfo = x := by
  have hal1 : (s.setAlias (some mA) x).aliasMap
      = pruneAlias (dictInsert (dictPopKey s.aliasMap (lookupOwner s.aliasMap x)) mA.winfo x)
          (s.allwins.map (fun w => w.winfo)) := rfl
  have haw1 : (s.setAlias (some mA) x).allwins = s.allwins := rfl
  have hspec1 := setAliasMap_spec s.aliasMap (s.allwins.map (fun w => w.winfo)) mA.winfo x
    hkeys hone hx hA
  have hkeys1 : ((((s.setAlias (some mA) x).aliasMap).map Prod.fst)).Nodup := by
    rw [hal1]
    exact hspec1.1
  have hone1 : (((s.setAlias (some mA) x).aliasMap).filter
      (fun q => decide (q.2 = x))).length ≤ 1 := by
    rw [hal1, hspec1.2]
    simp
  have hfilt1 : ((s.setAlias (some mA) x).aliasMap).filter (fun q => decide (q.2 = x))
      = [(mA.winfo, x)] := by
    rw [hal1]
    exact hspec1.2
  have hB1 : mB.winfo ∈ (s.setAlias (some mA) x).allwins.map (fun w => w.winfo) := by
    rw [haw1]
    exact hB
  have hspec2 := setAliasMap_spec ((s.setAlias (some mA) x).aliasMap)
    (((s.setAlias (some mA) x).allwins).map (fun w => w.winfo)) mB.winfo x
    hkeys1 hone1 hx hB1
  have hal2 : ((s.setAlias (some mA) x).setAlias (some mB) x).aliasMap
      = pruneAlias
          (dictInsert
            (dictPopKey (s.setAlias (some mA) x).aliasMap
              (lookupOwner (s.setAlias (some mA) x).aliasMap x))
            mB.winfo x)
          (((s.setAlias (some mA) x).allwins).map (fun w => w.winfo)) := rfl
  have howner : lookupOwner (s.setAlias (some mA) x).aliasMap x = some mA.winfo := by
    unfold lookupOwner
    rw [hfilt1]
    rfl
  constructor
  · apply aliasGet_of_not_mem
    intro q hq
    rw [hal2] at hq
    have hq2 := mem_pruneAlias _ _ q hq
    rcases mem_dictInsert _ _ _ q hq2 with h | ⟨hmem, _⟩
    · rw [h]
      intro hc
      exact hAB (by exact hc.symm)
    · rw [howner] at hmem
      exact (mem_dictPopKey _ _ q hmem).2
  · apply aliasGet_of_mem_nodup
    · have hfin : (((s.setAlias (some mA) x).setAlias (some mB) x).aliasMap).filter
          (fun q => decide (q.2 = x)) = [(mB.winfo, x)] := by
        rw [hal2]
        exact hspec2.2
      have hmm : (mB.winfo, x)
          ∈ (((s.setAlias (some mA) x).setAlias (some mB) x).aliasMap).filter
            (fun q => decide (q.2 = x)) := by
        rw [hfin]
        exact List.mem_singleton.mpr rfl
      exact (List.filter_sublist _).subset hmm
    · rw [hal2]
      exact hspec2.1

/-- Witness for C7: in the three-window state with an empty alias store,
    setting alias fin on Alpha and then on Beta leaves Alpha unaliased and
    Beta owning fin. -/
theorem c7_witness :
    aliasGet ((wmABC.setAlias (some winA) ("fin")).setAlias (some winB) ("fin")).aliasMap
        winA.winfo = ""
    ∧ aliasGet ((wmABC.setAlias (some winA) ("fin")).setAlias (some winB) ("fin")).aliasMap
        winB.winfo = "fin" :=
  c7_alias_unique wmABC winA winB ("fin") (by decide) (by decide) (by decide) (by decide)
    (by decide) (by decide)

end PyQuickWin
